import Mathlib

/-!
Verification of the documentation extractor and template renderer of
`cargo-readme` (`src/doc.rs`).  Lines of text are modelled as `List Char`;
the doc-comment marker is the three characters `//!`.  The two regexes of
`extract` are modelled by explicit decidable matchers, the Rust method
`String::contains` by `listContains`, and `String::replace` by
`listReplace`.  Byte indexing (`line[4..]`) is modelled by `List.drop 4`,
which agrees with the source on ASCII input; the Unicode whitespace set
of Rust is modelled by `Char.isWhitespace`, which agrees on the ASCII
whitespace characters.
-/

namespace CargoReadme

/-- Fence-tracking state of the extractor, `enum Code` in `doc.rs`:
`Rust` means inside a host-language fence, `Other` inside a fence tagged
with another language, `Doc` means documentation prose. -/
inductive Code where
  | Rust : Code
  | Other : Code
  | Doc : Code
deriving DecidableEq, Repr

/-- Package metadata, `struct CrateInfo` in `doc.rs`. -/
structure CrateInfo where
  name : List Char
  license : Option (List Char)
  bin : Option (List Char)
  lib : Option (List Char)

/-- Whitespace test used by Rust `str::trim` (ASCII fragment). -/
def isWs (c : Char) : Bool := c.isWhitespace

/-- Word character of the regex class used in the pattern of
`re_code_other` (ASCII fragment of Rust regex `\w`). -/
def isWordChar (c : Char) : Bool := c.isAlphanum || c == '_'

/-- The doc-comment marker `//!`. -/
def markerL : List Char := "//!".toList

/-- The hidden-line test string `//! # ` of `extract`. -/
def hiddenPrefixL : List Char := "//! # ".toList

/-- The bare fence line `//! ```: as a whole marked line it closes a fence,
and it is also the plain host-fence opener. -/
def fenceLineL : List Char := "//! ```".toList

/-- Host-fence opener with the `no_run` qualifier. -/
def rustOpenNoRunL : List Char := "//! ```no_run".toList

/-- Host-fence opener with the `ignore` qualifier. -/
def rustOpenIgnoreL : List Char := "//! ```ignore".toList

/-- Host-fence opener with the `should_panic` qualifier. -/
def rustOpenPanicL : List Char := "//! ```should_panic".toList

/-- The normalized opening fence emitted for host-language fences. -/
def rustOutL : List Char := "```rust".toList

/-- The normalized closing fence emitted when a fence is closed. -/
def closeOutL : List Char := "```".toList

/-- The heading marker string `#` tested by `line.starts_with("#")`. -/
def hashL : List Char := "#".toList

/-- The backtick character of the fence delimiters. -/
def tickChar : Char := Char.ofNat 96

/-- Matcher of the anchored regex `^//! ```(no_run|ignore|should_panic)?$`
(`re_code_rust` in `extract`): the line is exactly one of four strings. -/
def re_code_rust_match (l : List Char) : Bool :=
  l == fenceLineL || l == rustOpenNoRunL || l == rustOpenIgnoreL || l == rustOpenPanicL

/-- Does the unanchored regex ``//! ```\w+`` match at the start of `l`? -/
def otherOpenAt (l : List Char) : Bool :=
  fenceLineL.isPrefixOf l &&
    (match l.drop 7 with
     | [] => false
     | c :: _ => isWordChar c)

/-- Matcher of the unanchored regex ``//! ```\w+`` (`re_code_other` in
`extract`): the pattern may occur anywhere in the line. -/
def re_code_other_match : List Char → Bool
  | [] => false
  | c :: t => otherOpenAt (c :: t) || re_code_other_match t

/-- Rust `trim_right_matches("\n")`: remove every trailing newline. -/
def trimRightNewlines (l : List Char) : List Char :=
  (l.reverse.dropWhile fun c => c == '\n').reverse

/-- Rust `str::trim`: remove leading and trailing whitespace. -/
def trimList (l : List Char) : List Char :=
  ((l.dropWhile isWs).reverse.dropWhile isWs).reverse

/-- The non-transition emission path of `extract` for a marked line, with
`sec` the fence state after the transition step: the hidden-line
suppression, the blank-line collapse (`line.trim() == "//!"`), the prefix
strip `line[4..]` and the optional heading indent. -/
def extractEmit (ih : Bool) (sec : Code) (line : List Char) : Option (List Char) :=
  if sec = Code.Rust ∧ hiddenPrefixL.isPrefixOf line then
    none
  else if trimList line = markerL then
    some []
  else if ih = true ∧ sec = Code.Doc ∧ hashL.isPrefixOf (line.drop 4) then
    some ('#' :: line.drop 4)
  else
    some (line.drop 4)

/-- One step of the `filter_map` closure of `extract`: from the current
fence state and one input line, the next state and the emitted line, if
any.  The branch order mirrors the source: host-fence open, other-fence
open (falling through to emission with the updated state), fence close,
then the plain emission path. -/
def extractLine (ih : Bool) (sec : Code) (line : List Char) : Code × Option (List Char) :=
  if markerL.isPrefixOf line then
    if sec = Code.Doc ∧ re_code_rust_match line = true then
      (Code.Rust, some rustOutL)
    else if sec = Code.Doc ∧ re_code_other_match line = true then
      (Code.Other, extractEmit ih Code.Other line)
    else if sec ≠ Code.Doc ∧ line = fenceLineL then
      (Code.Doc, some closeOutL)
    else
      (sec, extractEmit ih sec line)
  else
    (sec, none)

/-- The left-to-right scan of `extract` from a given fence state. -/
def extractGo (ih : Bool) : Code → List (List Char) → List (List Char)
  | _, [] => []
  | sec, line :: rest =>
    ((extractLine ih sec line).2).toList ++ extractGo ih (extractLine ih sec line).1 rest

/-- `extract` of `doc.rs`: scan the input lines starting in `Doc` state. -/
def extract (lines : List (List Char)) (indent_headings : Bool) : List (List Char) :=
  extractGo indent_headings Code.Doc lines

/-- The fence state reached after scanning the given lines. -/
def stateAfter (ih : Bool) (sec : Code) (lines : List (List Char)) : Code :=
  lines.foldl (fun s l => (extractLine ih s l).1) sec

/-- `fold_data` of `doc.rs`: join the lines with a newline separator. -/
def fold_data (data : List (List Char)) : List Char :=
  match data with
  | [] => []
  | [x] => x
  | x :: y :: rest => (y :: rest).foldl (fun acc line => acc ++ '\n' :: line) x

/-- Rust `String::contains` on strings: substring test. -/
def listContains (s pat : List Char) : Bool :=
  match s with
  | [] => pat.isEmpty
  | c :: t => pat.isPrefixOf (c :: t) || listContains t pat

/-- Scanner of `listReplace`: `skip` counts characters still belonging to
the previously replaced occurrence, which are consumed without output. -/
def replAux (pat rep : List Char) : List Char → Nat → List Char
  | [], _ => []
  | _ :: t, skip + 1 => replAux pat rep t skip
  | c :: t, 0 =>
    if pat.isEmpty = false ∧ pat.isPrefixOf (c :: t) then
      rep ++ replAux pat rep t (pat.length - 1)
    else
      c :: replAux pat rep t 0

/-- Rust `String::replace`: replace every occurrence of `pat` by `rep`,
scanning left to right without overlap.  (For the empty pattern this
embedding is the identity; every placeholder of the program is
non-empty.) -/
def listReplace (pat rep s : List Char) : List Char := replAux pat rep s 0

/-- `prepend_title` of `doc.rs`. -/
def prepend_title (readme : List Char) (crate_name : List Char) : List Char :=
  ("# ").toList ++ crate_name ++ ("\n\n").toList ++ readme

/-- `append_license` of `doc.rs`. -/
def append_license (readme : List Char) (license : List Char) : List Char :=
  readme ++ ("\n\n").toList ++ ("License: ").toList ++ license

/-- The crate-name placeholder. -/
def crateTagL : List Char := "\x7b\x7bcrate\x7d\x7d".toList

/-- The license placeholder. -/
def licenseTagL : List Char := "\x7b\x7blicense\x7d\x7d".toList

/-- The body placeholder. -/
def readmeTagL : List Char := "\x7b\x7breadme\x7d\x7d".toList

/-- Error text of the plain missing-license failure. -/
def errNoLicense : List Char := "There is no license in Cargo.toml".toList

/-- Error text of the template-references-license failure. -/
def errLicenseTemplate : List Char :=
  "`\x7b\x7blicense\x7d\x7d` found in template but there is no license in Cargo.toml".toList

/-- Error text of the missing-body-placeholder failure. -/
def errMissingReadme : List Char := "Missing `\x7b\x7breadme\x7d\x7d` in template".toList

/-- The title block of `process_template` (lines 153-157 of `doc.rs`):
either prepend the title to the readme or substitute the crate name. -/
def titleStep (template readme name : List Char) (add_title : Bool) : List Char × List Char :=
  if add_title = true ∧ listContains template crateTagL = false then
    (template, prepend_title readme name)
  else
    (listReplace crateTagL name template, readme)

/-- The license-substitution block of `process_template` (lines 167-171 of
`doc.rs`), reached only when the license checks have passed. -/
def licenseStep (template readme license : List Char) (add_license : Bool) : List Char × List Char :=
  if add_license = true ∧ listContains template licenseTagL = false then
    (template, append_license readme license)
  else if listContains template licenseTagL = true then
    (listReplace licenseTagL license template, readme)
  else
    (template, readme)

/-- `process_template` of `doc.rs`, the templated path of the renderer;
the template text stands for the result of `get_template`. -/
def process_template (templ readme : List Char) (crate_info : CrateInfo)
    (add_title add_license : Bool) : Except (List Char) (List Char) :=
  let template0 := trimRightNewlines templ
  let p := titleStep template0 readme crate_info.name add_title
  if listContains p.1 licenseTagL = true ∧ crate_info.license = none then
    Except.error errLicenseTemplate
  else if add_license = true ∧ crate_info.license = none then
    Except.error errNoLicense
  else
    let q := licenseStep p.1 p.2 (crate_info.license.getD []) add_license
    if listContains q.1 readmeTagL = false then
      Except.error errMissingReadme
    else
      Except.ok (listReplace readmeTagL q.2 q.1)

/-- `generate_readme` of `doc.rs` with the I/O plumbing factored out: the
source lines stand for the `source` reader and `crate_info` for the
result of `get_crate_info`. -/
def generate_readme (source : List (List Char)) (template : Option (List Char))
    (crate_info : CrateInfo) (add_title add_license indent_headings : Bool) :
    Except (List Char) (List Char) :=
  let readme := fold_data (extract source indent_headings)
  if add_license = true ∧ crate_info.license = none then
    Except.error errNoLicense
  else
    match template with
    | some t => process_template t readme crate_info add_title add_license
    | none =>
      let readme1 := if add_title then prepend_title readme crate_info.name else readme
      let readme2 :=
        if add_license then append_license readme1 (crate_info.license.getD []) else readme1
      Except.ok readme2

theorem contains_iff (q : List Char) : ∀ s, listContains s q = true ↔ ∃ a b, s = a ++ q ++ b := by
  intro s
  induction s with
  | nil =>
    constructor
    · intro h
      have hq : q = [] := by simpa [listContains, List.isEmpty_iff] using h
      exact ⟨[], [], by simp [hq]⟩
    · rintro ⟨a, b, hab⟩
      have h2 : a ++ (q ++ b) = [] := by simpa using hab.symm
      have hq : q = [] := (List.append_eq_nil.mp ((List.append_eq_nil.mp h2).2)).1
      simp [listContains, hq]
  | cons c t ih =>
    constructor
    · intro h
      have h' : q.isPrefixOf (c :: t) = true ∨ listContains t q = true := by
        simpa [listContains, Bool.or_eq_true] using h
      rcases h' with h1 | h2
      · have hp : q <+: c :: t := by simpa using h1
        obtain ⟨r, hr⟩ := hp
        exact ⟨[], r, by simp [hr.symm]⟩
      · obtain ⟨a, b, hab⟩ := ih.mp h2
        exact ⟨c :: a, b, by simp [hab]⟩
    · rintro ⟨a, b, hab⟩
      cases a with
      | nil =>
        have hp : q.isPrefixOf (c :: t) = true := by
          rw [List.isPrefixOf_iff_prefix]
          exact ⟨b, by simpa using hab.symm⟩
        simp [listContains, hp]
      | cons a0 a' =>
        rw [List.cons_append] at hab
        injection hab with h0 h1
        have h2 : listContains t q = true := ih.mpr ⟨a', b, h1⟩
        simp [listContains, h2]

theorem contains_cons (q : List Char) (c : Char) (t : List Char)
    (h : listContains t q = true) : listContains (c :: t) q = true := by
  simp [listContains, h]

theorem contains_append_pre (q x y : List Char) (h : listContains x q = true) :
    listContains (y ++ x) q = true := by
  obtain ⟨a, b, hab⟩ := (contains_iff q x).mp h
  exact (contains_iff q (y ++ x)).mpr ⟨y ++ a, b, by simp [hab]⟩

theorem contains_self_app (q x : List Char) : listContains (q ++ x) q = true :=
  (contains_iff q (q ++ x)).mpr ⟨[], x, by simp⟩

theorem contains_self_app_left (q a : List Char) : listContains (a ++ q) q = true :=
  (contains_iff _ _).mpr ⟨a, [], by simp⟩

theorem listReplace_cons_neg (pat rep : List Char) (c : Char) (t : List Char)
    (h : pat.isPrefixOf (c :: t) = false) :
    listReplace pat rep (c :: t) = c :: listReplace pat rep t := by
  simp [listReplace, replAux, h]

theorem replAux_skip (pat rep : List Char) :
    ∀ x y : List Char, replAux pat rep (x ++ y) x.length = replAux pat rep y 0 := by
  intro x
  induction x with
  | nil => intro y; rfl
  | cons c x' ih => intro y; simpa [replAux] using ih y

theorem listReplace_pos (pat rep s : List Char) (hne : pat ≠ [])
    (h : pat.isPrefixOf s = true) :
    listReplace pat rep s = rep ++ listReplace pat rep (s.drop pat.length) := by
  have hp : pat <+: s := by simpa using h
  obtain ⟨r, hr⟩ := hp
  cases pat with
  | nil => exact absurd rfl hne
  | cons p0 pt =>
    subst hr
    rw [List.drop_left]
    show replAux (p0 :: pt) rep (p0 :: (pt ++ r)) 0 = rep ++ replAux (p0 :: pt) rep r 0
    have h2 : (p0 :: pt).isPrefixOf (p0 :: (pt ++ r)) = true :=
      List.isPrefixOf_iff_prefix.mpr
        (by rw [← List.cons_append]; exact List.prefix_append _ _)
    simp only [replAux, List.isEmpty_cons, h2, List.length_cons, Nat.add_sub_cancel, and_true]
    simp only [if_true]
    rw [replAux_skip (p0 :: pt) rep pt r]

theorem crateTag_eq : crateTagL = ['\x7b', '\x7b', 'c', 'r', 'a', 't', 'e', '\x7d', '\x7d'] := by decide

theorem licenseTag_eq :
    licenseTagL = ['\x7b', '\x7b', 'l', 'i', 'c', 'e', 'n', 's', 'e', '\x7d', '\x7d'] := by decide

theorem crateTag_len : crateTagL.length = 9 := by decide

theorem licenseTag_len : licenseTagL.length = 11 := by decide

theorem pref_of_pref_le {l1 l2 l3 : List Char} (h1 : l1 <+: l3) (h2 : l2 <+: l3)
    (hle : l1.length ≤ l2.length) : l1 <+: l2 := by
  rcases List.prefix_or_prefix_of_prefix h1 h2 with h | h
  · exact h
  · have heq : l2 = l1 := h.eq_of_length (le_antisymm h.length_le hle)
    exact heq ▸ List.prefix_refl l1

theorem crateTag_drop_not_pref :
    ∀ j, j < 9 → (crateTagL.drop j).isPrefixOf licenseTagL = false := by decide

theorem qcopy (name b : List Char) :
    listReplace crateTagL name (licenseTagL ++ b) = licenseTagL ++ listReplace crateTagL name b := by
  rw [licenseTag_eq]
  simp [listReplace_cons_neg, crateTag_eq, List.isPrefixOf]

theorem repl_pres_aux (name : List Char) :
    ∀ n a b, a.length ≤ n →
      listContains (listReplace crateTagL name (a ++ (licenseTagL ++ b))) licenseTagL = true := by
  intro n
  induction n with
  | zero =>
    intro a b ha
    have ha0 : a = [] := List.eq_nil_of_length_eq_zero (Nat.le_zero.mp ha)
    subst ha0
    rw [List.nil_append, qcopy]
    exact contains_self_app _ _
  | succ n ih =>
    intro a b ha
    cases a with
    | nil =>
      rw [List.nil_append, qcopy]
      exact contains_self_app _ _
    | cons c a' =>
      by_cases hp : crateTagL.isPrefixOf ((c :: a') ++ (licenseTagL ++ b)) = true
      · have hpre : crateTagL <+: (c :: a') ++ (licenseTagL ++ b) := by
          rw [← List.isPrefixOf_iff_prefix]; exact hp
        by_cases hlen : 9 ≤ (c :: a').length
        · have hca : crateTagL <+: (c :: a') :=
            pref_of_pref_le hpre (List.prefix_append _ _) (by rw [crateTag_len]; exact hlen)
          obtain ⟨r, hr⟩ := hca
          rw [listReplace_pos _ _ _ (by rw [crateTag_eq]; simp) hp]
          have hd : ((c :: a') ++ (licenseTagL ++ b)).drop crateTagL.length
              = r ++ (licenseTagL ++ b) := by
            rw [← hr, List.append_assoc, List.drop_left]
          rw [hd]
          apply contains_append_pre
          apply ih r b
          have hl : (c :: a').length = crateTagL.length + r.length := by
            rw [← hr, List.length_append]
          have hl2 : (c :: a').length ≤ n + 1 := ha
          rw [crateTag_len] at hl
          omega
        · have hac : (c :: a') <+: crateTagL :=
            pref_of_pref_le (List.prefix_append _ _) hpre
              (by rw [crateTag_len]; omega)
          obtain ⟨r, hr⟩ := hac
          have h1 : (c :: a') ++ r <+: (c :: a') ++ (licenseTagL ++ b) := hr ▸ hpre
          have h2 : r <+: licenseTagL ++ b := (List.prefix_append_right_inj _).mp h1
          have hrl : (c :: a').length + r.length = 9 := by
            rw [← List.length_append, hr, crateTag_len]
          have h3 : r <+: licenseTagL :=
            pref_of_pref_le h2 (List.prefix_append _ _) (by rw [licenseTag_len]; omega)
          have hr2 : r = crateTagL.drop (c :: a').length := by rw [← hr, List.drop_left]
          have h4 := crateTag_drop_not_pref (c :: a').length (by omega)
          rw [← hr2] at h4
          have h5 : r.isPrefixOf licenseTagL = true := by
            rw [List.isPrefixOf_iff_prefix]; exact h3
          rw [h4] at h5
          exact absurd h5 (by simp)
      · have hp0 : crateTagL.isPrefixOf ((c :: a') ++ (licenseTagL ++ b)) = false :=
          Bool.eq_false_iff.mpr hp
        rw [List.cons_append] at hp0
        rw [List.cons_append, listReplace_cons_neg _ _ _ _ hp0]
        apply contains_cons
        apply ih a' b
        have hl2 : (c :: a').length ≤ n + 1 := ha
        simp only [List.length_cons] at hl2
        omega

theorem repl_pres (name s : List Char) (h : listContains s licenseTagL = true) :
    listContains (listReplace crateTagL name s) licenseTagL = true := by
  obtain ⟨a, b, hab⟩ := (contains_iff _ _).mp h
  rw [List.append_assoc] at hab
  subst hab
  exact repl_pres_aux name a.length a b le_rfl

theorem trimRightNewlines_pref (l : List Char) : trimRightNewlines l <+: l := by
  unfold trimRightNewlines
  have h1 : (l.reverse.dropWhile fun c => c == '\n') <:+ l.reverse :=
    ⟨l.reverse.takeWhile fun c => c == '\n', List.takeWhile_append_dropWhile _ _⟩
  have h2 := List.reverse_prefix.mpr h1
  rwa [List.reverse_reverse] at h2

theorem contains_of_contains_trim (q l : List Char)
    (h : listContains (trimRightNewlines l) q = true) : listContains l q = true := by
  obtain ⟨t, ht⟩ := trimRightNewlines_pref l
  obtain ⟨a, b, hab⟩ := (contains_iff _ _).mp h
  refine (contains_iff _ _).mpr ⟨a, b ++ t, ?_⟩
  rw [← ht, hab]
  simp [List.append_assoc]

theorem contains_trim_of_contains (q : List Char) (hq : q ≠ []) (hn : '\n' ∉ q)
    (l : List Char) (h : listContains l q = true) :
    listContains (trimRightNewlines l) q = true := by
  obtain ⟨a, b, hab⟩ := (contains_iff _ _).mp h
  subst hab
  unfold trimRightNewlines
  rw [List.append_assoc, List.reverse_append, List.reverse_append, List.append_assoc,
    List.dropWhile_append]
  by_cases he : ((b.reverse.dropWhile fun c => c == '\n').isEmpty) = true
  · rw [if_pos he]
    cases hq2 : q.reverse with
    | nil => exact absurd (by simpa using hq2) hq
    | cons c r =>
      have hc : c ∈ q := by
        have hc0 : c ∈ q.reverse := by rw [hq2]; exact List.mem_cons_self c r
        simpa using hc0
      have hcn : (c == '\n') = false := by
        by_cases h2 : c = '\n'
        · exact absurd (h2 ▸ hc) hn
        · simp [h2]
      rw [List.cons_append, List.dropWhile_cons_of_neg (by simp [hcn])]
      rw [← List.cons_append, ← hq2, List.reverse_append, List.reverse_reverse,
        List.reverse_reverse]
      exact contains_self_app_left q a
  · rw [if_neg he]
    rw [List.reverse_append, List.reverse_append, List.reverse_reverse, List.reverse_reverse]
    exact (contains_iff _ _).mpr ⟨a, (b.reverse.dropWhile fun c => c == '\n').reverse,
      by simp [List.append_assoc]⟩

theorem mem_dropWhile_of (p : Char → Bool) (c : Char) (hc : p c = false) :
    ∀ l : List Char, c ∈ l → c ∈ l.dropWhile p := by
  intro l
  induction l with
  | nil => intro h; simp at h
  | cons x t ih =>
    intro h
    by_cases hx : p x = true
    · rw [List.dropWhile_cons_of_pos hx]
      rcases List.mem_cons.mp h with rfl | h2
      · exact absurd hx (by simp [hc])
      · exact ih h2
    · rw [List.dropWhile_cons_of_neg hx]
      exact h

theorem mem_trimList (c : Char) (hc : isWs c = false) (l : List Char) (h : c ∈ l) :
    c ∈ trimList l := by
  unfold trimList
  rw [List.mem_reverse]
  apply mem_dropWhile_of _ _ hc
  rw [List.mem_reverse]
  exact mem_dropWhile_of _ _ hc l h

theorem trimList_ne_marker_of_mem (c : Char) (hcw : isWs c = false) (hcm : c ∉ markerL)
    (l : List Char) (h : c ∈ l) : trimList l ≠ markerL := by
  intro he
  exact hcm (he ▸ mem_trimList c hcw l h)

theorem tick_mem_of_other : ∀ l : List Char, re_code_other_match l = true → tickChar ∈ l := by
  intro l
  induction l with
  | nil => intro h; simp [re_code_other_match] at h
  | cons c t ih =>
    intro h
    have h' : otherOpenAt (c :: t) = true ∨ re_code_other_match t = true := by
      simpa [re_code_other_match, Bool.or_eq_true] using h
    rcases h' with h1 | h2
    · have hp : fenceLineL.isPrefixOf (c :: t) = true := by
        unfold otherOpenAt at h1
        exact (Bool.and_eq_true_iff.mp h1).1
      have hp' : fenceLineL <+: c :: t := by
        rw [← List.isPrefixOf_iff_prefix]
        exact hp
      obtain ⟨r, hr⟩ := hp'
      rw [← hr]
      exact List.mem_append_left _ (by decide)
    · exact List.mem_cons_of_mem _ (ih h2)

theorem extractEmit_eq_none_iff (ih : Bool) (sec : Code) (line : List Char) :
    extractEmit ih sec line = none
      ↔ sec = Code.Rust ∧ hiddenPrefixL.isPrefixOf line = true := by
  unfold extractEmit
  split_ifs with h1 h2 h3 <;> simp [h1] <;>
    exact fun hs hp => h1 ⟨hs, List.isPrefixOf_iff_prefix.mpr hp⟩

theorem extractEmit_ih_inv (sec : Code) (line : List Char) (h : sec ≠ Code.Doc) (b : Bool) :
    extractEmit b sec line = extractEmit false sec line := by
  simp [extractEmit, h]

theorem extractLine_none_iff (ih : Bool) (sec : Code) (line : List Char) :
    (extractLine ih sec line).2 = none
      ↔ (markerL.isPrefixOf line = false
          ∨ (sec = Code.Rust ∧ hiddenPrefixL.isPrefixOf line = true)) := by
  by_cases hm : markerL.isPrefixOf line = true
  · by_cases h1 : sec = Code.Doc ∧ re_code_rust_match line = true
    · obtain ⟨hs, hr⟩ := h1
      subst hs
      simp [extractLine, hm, hr]
    · by_cases h2 : sec = Code.Doc ∧ re_code_other_match line = true
      · obtain ⟨hs, ho⟩ := h2
        subst hs
        have h1' : re_code_rust_match line = false := by simpa using h1
        simp [extractLine, hm, h1', ho, extractEmit_eq_none_iff]
      · by_cases h3 : sec ≠ Code.Doc ∧ line = fenceLineL
        · obtain ⟨hs, hl⟩ := h3
          subst hl
          simp [extractLine, hm, h1, h2, hs,
            (by decide : hiddenPrefixL.isPrefixOf fenceLineL = false)]
        · simp [extractLine, hm, h1, h2, h3, extractEmit_eq_none_iff]
  · have hm' : markerL.isPrefixOf line = false := Bool.eq_false_iff.mpr hm
    simp [extractLine, hm']

theorem marked_of_emit (ih : Bool) (sec : Code) (line o : List Char)
    (h : (extractLine ih sec line).2 = some o) : markerL.isPrefixOf line = true := by
  by_contra hm
  have h2 : (extractLine ih sec line).2 = none :=
    (extractLine_none_iff ih sec line).mpr (Or.inl (Bool.eq_false_iff.mpr hm))
  rw [h] at h2
  simp at h2

theorem extractGo_append (ih : Bool) : ∀ (xs ys : List (List Char)) (sec : Code),
    extractGo ih sec (xs ++ ys)
      = extractGo ih sec xs ++ extractGo ih (stateAfter ih sec xs) ys := by
  intro xs
  induction xs with
  | nil => intro ys sec; simp [extractGo, stateAfter]
  | cons x xs ih2 =>
    intro ys sec
    simp only [List.cons_append, extractGo, List.append_eq]
    rw [ih2 ys (extractLine ih sec x).1]
    simp [stateAfter, List.append_assoc]

theorem mem_extractGo (ih : Bool) : ∀ (lines : List (List Char)) (sec : Code) (o : List Char),
    o ∈ extractGo ih sec lines →
      ∃ l, l ∈ lines ∧ markerL.isPrefixOf l = true
        ∧ ∃ s s', extractLine ih s l = (s', some o) := by
  intro lines
  induction lines with
  | nil => intro sec o h; simp [extractGo] at h
  | cons x xs ih2 =>
    intro sec o h
    simp only [extractGo, List.mem_append] at h
    rcases h with h | h
    · have h2 : (extractLine ih sec x).2 = some o := by
        cases hx : (extractLine ih sec x).2 with
        | none => rw [hx] at h; simp at h
        | some v =>
          rw [hx] at h
          simp at h
          subst h
          rfl
      refine ⟨x, List.mem_cons_self _ _, marked_of_emit ih sec x o h2,
        sec, (extractLine ih sec x).1, ?_⟩
      rw [← h2]
    · obtain ⟨l, hl, hmk, s, s', he⟩ := ih2 (extractLine ih sec x).1 o h
      exact ⟨l, List.mem_cons_of_mem _ hl, hmk, s, s', he⟩

theorem extractLine_doc_true_eq (line : List Char) :
    extractLine true Code.Doc line
      = ((extractLine false Code.Doc line).1,
          (extractLine false Code.Doc line).2.map fun x =>
            if (extractLine false Code.Doc line).1 = Code.Doc
                ∧ hashL.isPrefixOf x = true
            then '#' :: x else x) := by
  by_cases hm : markerL.isPrefixOf line = true
  · by_cases h1 : re_code_rust_match line = true
    · simp [extractLine, hm, h1]
    · by_cases h2 : re_code_other_match line = true
      · have h1f : re_code_rust_match line = false := Bool.eq_false_iff.mpr h1
        simp only [extractLine, hm, h1f, Bool.false_eq_true, eq_self_iff_true, true_and,
          if_true, if_false, ite_false, ite_true, h2]
        rw [extractEmit_ih_inv Code.Other line (by simp) true]
        cases extractEmit false Code.Other line <;> simp
      · have h1f : re_code_rust_match line = false := Bool.eq_false_iff.mpr h1
        have h2f : re_code_other_match line = false := Bool.eq_false_iff.mpr h2
        simp [extractLine, hm, h1f, h2f]
        by_cases ht : trimList line = markerL
        · simp [extractEmit, ht, (show hashL ≠ [] by decide)]
        · by_cases hh : hashL <+: line.drop 4
          · have hhb : hashL.isPrefixOf (line.drop 4) = true :=
              List.isPrefixOf_iff_prefix.mpr hh
            simp [extractEmit, ht, hhb, hh]
          · have hhb : hashL.isPrefixOf (line.drop 4) = false :=
              Bool.eq_false_iff.mpr fun hx => hh (List.isPrefixOf_iff_prefix.mp hx)
            simp [extractEmit, ht, hhb, hh]
  · have hm2 : markerL.isPrefixOf line = false := Bool.eq_false_iff.mpr hm
    simp [extractLine, hm2]

/-- Claim C1: in the templated path of the renderer (`process_template`), for every template that contains the license placeholder and every metadata record whose license is absent, rendering fails with the template-references-license error, for both values of `add_license`; this check takes priority over the plain missing-license check, which only comes after it. -/
theorem c1_template_license_priority (templ readme : List Char) (ci : CrateInfo)
    (add_title add_license : Bool)
    (hc : listContains templ licenseTagL = true) (hl : ci.license = none) :
    process_template templ readme ci add_title add_license
      = Except.error errLicenseTemplate := by
  have h0 : listContains (trimRightNewlines templ) licenseTagL = true :=
    contains_trim_of_contains licenseTagL (by decide) (by decide) templ hc
  have h1 : listContains (titleStep (trimRightNewlines templ) readme ci.name add_title).1
      licenseTagL = true := by
    by_cases h : add_title = true ∧ listContains (trimRightNewlines templ) crateTagL = false
    · simp only [titleStep, if_pos h]
      exact h0
    · simp only [titleStep, if_neg h]
      exact repl_pres ci.name _ h0
  simp only [process_template]
  rw [if_pos ⟨h1, hl⟩]

/-- Witness for claim C1 at a concrete template, with `add_license` set. -/
theorem c1_w :
    process_template (("\x7b\x7blicense\x7d\x7d then \x7b\x7breadme\x7d\x7d").toList)
        (("body").toList) ⟨("my_crate").toList, none, none, none⟩ true true
      = Except.error errLicenseTemplate :=
  c1_template_license_priority _ _ _ _ _ (by decide) rfl

/-- Counterexample to claim C2 as stated: a template that lacks the body placeholder but references the license placeholder, with the metadata license absent, fails with the license error rather than the missing-body-placeholder error. -/
theorem c2_cex :
    listContains (("\x7b\x7blicense\x7d\x7d info").toList) readmeTagL = false
    ∧ process_template (("\x7b\x7blicense\x7d\x7d info").toList) (("body").toList)
        ⟨("my_crate").toList, none, none, none⟩ false false
      = Except.error errLicenseTemplate
    ∧ errLicenseTemplate ≠ errMissingReadme := by
  refine ⟨by decide, by rfl, by decide⟩

/-- Claim C2 (amended): when neither license check fires (the processed template does not reference the license placeholder while the license is absent, and `add_license` does not hold with the license absent) and the template after trimming and substitution does not contain the body placeholder, the templated path fails with the missing-body-placeholder error. -/
theorem c2_amended (templ readme : List Char) (ci : CrateInfo)
    (add_title add_license : Bool)
    (h1 : ¬(listContains (titleStep (trimRightNewlines templ) readme ci.name add_title).1
        licenseTagL = true ∧ ci.license = none))
    (h2 : ¬(add_license = true ∧ ci.license = none))
    (h3 : listContains
        (licenseStep (titleStep (trimRightNewlines templ) readme ci.name add_title).1
          (titleStep (trimRightNewlines templ) readme ci.name add_title).2
          (ci.license.getD []) add_license).1 readmeTagL = false) :
    process_template templ readme ci add_title add_license
      = Except.error errMissingReadme := by
  simp only [process_template]
  rw [if_neg h1, if_neg h2, if_pos h3]

/-- Witness for the amended claim C2 on a concrete placeholder-free template. -/
theorem c2_w :
    process_template (("plain text").toList) (("body").toList)
        ⟨("my_crate").toList, some (("MIT").toList), none, none⟩ false false
      = Except.error errMissingReadme :=
  c2_amended _ _ _ _ _ (by decide) (by decide) (by decide)

/-- Counterexample to claim C3 as stated: the line `//!x` neither starts with the marker-plus-space prefix nor is the bare marker, yet the extractor emits an output line (the empty string) for it. -/
theorem c3_cex :
    (("//! ").toList).isPrefixOf (("//!x").toList) = false
    ∧ ("//!x").toList ≠ ("//!").toList
    ∧ extract [("//!x").toList] false = [[]] := by
  refine ⟨by decide, by decide, by decide⟩

/-- Claim C3 (amended): a line contributes an emitted output line if and only if it begins with the 3-character marker `//!` and is not suppressed by the hidden-line rule (state `HostFence` with the hidden prefix); the code strips the first four characters rather than exactly a marker-plus-one-space prefix. -/
theorem c3_amended (ih : Bool) (sec : Code) (line : List Char) :
    ((extractLine ih sec line).2 ≠ none)
      ↔ (markerL.isPrefixOf line = true
          ∧ ¬(sec = Code.Rust ∧ hiddenPrefixL.isPrefixOf line = true)) := by
  rw [Ne, extractLine_none_iff]
  constructor
  · intro h
    constructor
    · by_cases hm : markerL.isPrefixOf line = true
      · exact hm
      · exact absurd (Or.inl (Bool.eq_false_iff.mpr hm)) h
    · intro hr
      exact h (Or.inr hr)
  · rintro ⟨hm, hnr⟩ (h | h)
    · rw [hm] at h
      exact Bool.noConfusion h
    · exact hnr h

/-- Witness for the amended claim C3 on a hidden line in the host-fence state. -/
theorem c3_w :
    ((extractLine false Code.Rust (("//! # x").toList)).2 ≠ none)
      ↔ (markerL.isPrefixOf (("//! # x").toList) = true
          ∧ ¬(Code.Rust = Code.Rust
              ∧ hiddenPrefixL.isPrefixOf (("//! # x").toList) = true)) :=
  c3_amended false Code.Rust (("//! # x").toList)

/-- Claim C4: with no template the renderer fails with the missing-license error exactly when `add_license` holds and the metadata license is absent; otherwise it returns the body with the title prepended when `add_title` holds and the license line appended when `add_license` holds, and cannot fail. -/
theorem c4_no_template (src : List (List Char)) (ci : CrateInfo)
    (add_title add_license ih : Bool) :
    (generate_readme src none ci add_title add_license ih = Except.error errNoLicense
        ↔ (add_license = true ∧ ci.license = none))
    ∧ (∀ lic, ci.license = some lic →
        generate_readme src none ci add_title add_license ih
          = Except.ok
              ((if add_title = true then ("# ").toList ++ ci.name ++ ("\n\n").toList else [])
                ++ fold_data (extract src ih)
                ++ (if add_license = true
                    then ("\n\n").toList ++ ("License: ").toList ++ lic else [])))
    ∧ (add_license = false →
        generate_readme src none ci add_title add_license ih
          = Except.ok
              ((if add_title = true then ("# ").toList ++ ci.name ++ ("\n\n").toList else [])
                ++ fold_data (extract src ih))) := by
  refine ⟨?_, ?_, ?_⟩
  · by_cases hA : add_license = true ∧ ci.license = none
    · simp [generate_readme, hA]
    · simp only [generate_readme]
      rw [if_neg hA]
      simp [hA]
  · intro lic hlic
    have hA : ¬(add_license = true ∧ ci.license = none) := by simp [hlic]
    simp only [generate_readme]
    rw [if_neg hA]
    cases add_title <;> cases add_license <;>
      simp [prepend_title, append_license, hlic, List.append_assoc]
  · intro hF
    subst hF
    have hA : ¬(false = true ∧ ci.license = none) := by simp
    simp only [generate_readme]
    rw [if_neg hA]
    cases add_title <;> simp [prepend_title, List.append_assoc]

/-- Witness for claim C4 on a concrete source and metadata record. -/
theorem c4_w :
    generate_readme [("//! docs").toList] none
        ⟨("my_crate").toList, some (("MIT").toList), none, none⟩ true true false
      = Except.ok (("# my_crate\n\ndocs\n\nLicense: MIT").toList) := by
  have h := (c4_no_template [("//! docs").toList]
    ⟨("my_crate").toList, some (("MIT").toList), none, none⟩ true true false).2.1
    (("MIT").toList) rfl
  exact h.trans (congrArg Except.ok (by decide))

/-- Claim C5: in the templated path, if `add_title` holds and the template does not contain the crate placeholder, the title is prepended to the body exactly as in the no-template path; if the template does contain it, the crate name is substituted into every occurrence and no title is prepended. -/
theorem c5_title_precedence (templ readme name : List Char) (add_title : Bool) :
    (add_title = true → listContains templ crateTagL = false →
      titleStep (trimRightNewlines templ) readme name add_title
        = (trimRightNewlines templ, prepend_title readme name))
    ∧ (listContains templ crateTagL = true →
      titleStep (trimRightNewlines templ) readme name add_title
        = (listReplace crateTagL name (trimRightNewlines templ), readme)) := by
  constructor
  · intro hT hC
    have hC2 : listContains (trimRightNewlines templ) crateTagL = false := by
      rcases Bool.eq_false_or_eq_true (listContains (trimRightNewlines templ) crateTagL)
        with hT2 | hF
      · have h3 := contains_of_contains_trim crateTagL templ hT2
        rw [hC] at h3
        exact Bool.noConfusion h3
      · exact hF
    unfold titleStep
    rw [if_pos ⟨hT, hC2⟩]
  · intro hC
    have hC2 : listContains (trimRightNewlines templ) crateTagL = true :=
      contains_trim_of_contains crateTagL (by decide) (by decide) templ hC
    have hcond : ¬(add_title = true
        ∧ listContains (trimRightNewlines templ) crateTagL = false) := by
      rintro ⟨-, h⟩
      rw [hC2] at h
      exact Bool.noConfusion h
    unfold titleStep
    rw [if_neg hcond]

/-- Witness for claim C5 on the two template shapes used by the repository tests. -/
theorem c5_w :
    titleStep (trimRightNewlines (("\x7b\x7breadme\x7d\x7d").toList)) (("body").toList)
        (("my_crate").toList) true
      = (trimRightNewlines (("\x7b\x7breadme\x7d\x7d").toList),
          prepend_title (("body").toList) (("my_crate").toList))
    ∧ titleStep (trimRightNewlines (("# \x7b\x7bcrate\x7d\x7d\n\n\x7b\x7breadme\x7d\x7d").toList))
        (("body").toList) (("my_crate").toList) true
      = (listReplace crateTagL (("my_crate").toList)
          (trimRightNewlines (("# \x7b\x7bcrate\x7d\x7d\n\n\x7b\x7breadme\x7d\x7d").toList)),
          ("body").toList) :=
  ⟨(c5_title_precedence (("\x7b\x7breadme\x7d\x7d").toList) (("body").toList)
      (("my_crate").toList) true).1 rfl (by decide),
   (c5_title_precedence (("# \x7b\x7bcrate\x7d\x7d\n\n\x7b\x7breadme\x7d\x7d").toList)
      (("body").toList) (("my_crate").toList) true).2 (by decide)⟩

/-- Claim C6: every host-fence opener, with any qualifier (plain, `no_run`, `ignore`, `should_panic`), emits the normalized opening delimiter tagged with the host language from `Prose` state, and the close line from `HostFence` state emits the bare closing delimiter, independent of the qualifier that opened the fence. -/
theorem c6_fence_roundtrip (ih : Bool) (l : List Char) :
    (re_code_rust_match l = true → extractLine ih Code.Doc l = (Code.Rust, some rustOutL))
    ∧ extractLine ih Code.Rust fenceLineL = (Code.Doc, some closeOutL) := by
  constructor
  · intro h
    have h4 : ((l = fenceLineL ∨ l = rustOpenNoRunL) ∨ l = rustOpenIgnoreL)
        ∨ l = rustOpenPanicL := by
      simpa [re_code_rust_match, Bool.or_eq_true, beq_iff_eq] using h
    have hm : markerL.isPrefixOf l = true := by
      rcases h4 with ((rfl | rfl) | rfl) | rfl <;> decide
    simp [extractLine, hm, h]
  · cases ih <;> decide

/-- Witness for claim C6 with the `no_run` qualifier. -/
theorem c6_w :
    extractLine true Code.Doc rustOpenNoRunL = (Code.Rust, some rustOutL)
    ∧ extractLine true Code.Rust fenceLineL = (Code.Doc, some closeOutL) :=
  ⟨(c6_fence_roundtrip true rustOpenNoRunL).1 (by decide),
   (c6_fence_roundtrip true rustOpenNoRunL).2⟩

/-- Claim C7: a marked line whose stripped content begins with the hidden-line marker (the line starts with marker, space, heading marker, space) is suppressed exactly when the fence state is `HostFence`; in `Prose` or `OtherFence` it is emitted. -/
theorem c7_hidden_only_host (ih : Bool) (sec : Code) (line : List Char)
    (h : hiddenPrefixL.isPrefixOf line = true) :
    ((extractLine ih sec line).2 = none ↔ sec = Code.Rust) := by
  have hm : markerL.isPrefixOf line = true := by
    have h1 : hiddenPrefixL <+: line := List.isPrefixOf_iff_prefix.mp h
    have h2 : markerL <+: hiddenPrefixL := by decide
    exact List.isPrefixOf_iff_prefix.mpr (h2.trans h1)
  rw [extractLine_none_iff]
  simp [hm, h]

/-- Witness for claim C7 in the two fence states `HostFence` and `OtherFence`. -/
theorem c7_w :
    ((extractLine true Code.Rust (("//! # setup").toList)).2 = none
        ↔ Code.Rust = Code.Rust)
    ∧ ((extractLine true Code.Other (("//! # setup").toList)).2 = none
        ↔ Code.Other = Code.Rust) :=
  ⟨c7_hidden_only_host true Code.Rust (("//! # setup").toList) (by decide),
   c7_hidden_only_host true Code.Other (("//! # setup").toList) (by decide)⟩

/-- Claim C8: the extra heading marker is prepended exactly when heading indentation is enabled, the fence state in effect for the emission step (after the fence-transition step, as in the source) is `Prose`, and the stripped line begins with a heading marker; lines emitted while inside a fence are identical whether the feature is on or off. -/
theorem c8_heading_indent (sec : Code) (line : List Char) :
    (sec ≠ Code.Doc → extractLine true sec line = extractLine false sec line)
    ∧ (∀ s o, extractLine false Code.Doc line = (s, o) →
        extractLine true Code.Doc line
          = (s, o.map fun x =>
              if s = Code.Doc ∧ hashL.isPrefixOf x = true then '#' :: x else x)) := by
  constructor
  · intro h
    by_cases hm : markerL.isPrefixOf line = true
    · have h1 : ¬(sec = Code.Doc ∧ re_code_rust_match line = true) := fun hx => h hx.1
      have h2 : ¬(sec = Code.Doc ∧ re_code_other_match line = true) := fun hx => h hx.1
      by_cases h3 : sec ≠ Code.Doc ∧ line = fenceLineL
      · simp only [extractLine]
        rw [if_pos hm, if_neg h1, if_neg h2, if_pos h3,
          if_pos hm, if_neg h1, if_neg h2, if_pos h3]
      · simp only [extractLine]
        rw [if_pos hm, if_neg h1, if_neg h2, if_neg h3,
          if_pos hm, if_neg h1, if_neg h2, if_neg h3,
          extractEmit_ih_inv sec line h true]
    · have hm2 : markerL.isPrefixOf line = false := Bool.eq_false_iff.mpr hm
      simp [extractLine, hm2]
  · intro s o he
    have h := extractLine_doc_true_eq line
    rw [he] at h
    exact h

/-- Witness for claim C8 inside a host fence and on a prose heading line. -/
theorem c8_w :
    extractLine true Code.Rust (("//! # x").toList)
      = extractLine false Code.Rust (("//! # x").toList)
    ∧ extractLine true Code.Doc (("//! # heading").toList)
      = (Code.Doc, (some (("# heading").toList)).map fun x =>
          if Code.Doc = Code.Doc ∧ hashL.isPrefixOf x = true then '#' :: x else x) :=
  ⟨(c8_heading_indent Code.Rust (("//! # x").toList)).1 (by simp),
   (c8_heading_indent Code.Doc (("//! # heading").toList)).2 Code.Doc
     (some (("# heading").toList)) (by decide)⟩

/-- Claim C9: every output line of the extractor originates from a marked input line (fence delimiters are synthesized from marked fence lines), and the output of a concatenated input is the concatenation of the outputs with the fence state threaded through, so output order is exactly the filtered and transformed order of the input lines. -/
theorem c9_order_origin (ih : Bool) (xs ys : List (List Char)) (o : List Char) :
    extractGo ih Code.Doc (xs ++ ys)
      = extractGo ih Code.Doc xs ++ extractGo ih (stateAfter ih Code.Doc xs) ys
    ∧ (o ∈ extract xs ih →
        ∃ l, l ∈ xs ∧ markerL.isPrefixOf l = true
          ∧ ∃ s s', extractLine ih s l = (s', some o)) :=
  ⟨extractGo_append ih xs ys Code.Doc, fun h => mem_extractGo ih xs Code.Doc o h⟩

/-- Witness for claim C9 on a two-line input. -/
theorem c9_w :
    extractGo false Code.Doc ([("//! a").toList] ++ [("//! b").toList])
      = extractGo false Code.Doc [("//! a").toList]
        ++ extractGo false (stateAfter false Code.Doc [("//! a").toList]) [("//! b").toList]
    ∧ ∃ l, l ∈ [("//! a").toList] ∧ markerL.isPrefixOf l = true
        ∧ ∃ s s', extractLine false s l = (s', some (("a").toList)) :=
  ⟨(c9_order_origin false [("//! a").toList] [("//! b").toList] (("a").toList)).1,
   (c9_order_origin false [("//! a").toList] [] (("a").toList)).2 (by decide)⟩

/-- Counterexample to claim C10 as stated: the opener with the `ignore` qualifier contains the other-fence substring pattern, but it also matches the anchored host-fence pattern, which is tested first, so the extractor opens a host fence and emits the normalized host delimiter instead. -/
theorem c10_cex :
    re_code_other_match (("//! ```ignore").toList) = true
    ∧ extractLine false Code.Doc (("//! ```ignore").toList) = (Code.Rust, some rustOutL)
    ∧ ((Code.Rust, some rustOutL) : Code × Option (List Char))
        ≠ (Code.Other, some ((("//! ```ignore").toList).drop 4)) := by
  refine ⟨by decide, by decide, by decide⟩

/-- Claim C10 (amended): the other-fence open test is a substring match; every marked line that contains the marker, a triple backtick and a word character anywhere, and does not match the anchored host-fence pattern, transitions to `OtherFence` from `Prose` and is emitted with only the first four characters dropped. -/
theorem c10_other_substring (ih : Bool) (line : List Char)
    (hm : markerL.isPrefixOf line = true)
    (ho : re_code_other_match line = true)
    (hr : re_code_rust_match line = false) :
    extractLine ih Code.Doc line = (Code.Other, some (line.drop 4)) := by
  have htr : trimList line ≠ markerL :=
    trimList_ne_marker_of_mem tickChar (by decide) (by decide) line
      (tick_mem_of_other line ho)
  simp [extractLine, extractEmit, hm, hr, ho, htr]

/-- Witness for the amended claim C10 on a line whose fence pattern sits mid-line. -/
theorem c10_w :
    extractLine false Code.Doc (("//! before //! ```c after").toList)
      = (Code.Other, some ((("//! before //! ```c after").toList).drop 4)) :=
  c10_other_substring false (("//! before //! ```c after").toList)
    (by decide) (by decide) (by decide)

end CargoReadme
